import Mathlib

/-!
Verification of the chunk format and chunk-writer subsystem of the Hub
repository, shallowly embedded from `src/hub/core/chunk/base_chunk.py`.

Collaborator modules of `BaseChunk` (the two run-length encoders, the
serialize helpers, `TensorMeta`, `SampleTiles`, the compression registry)
are not part of the source tree given here; they are modelled from the
specification, and each such definition carries a doc comment saying so.
Machine bytes are modelled as natural numbers; byte buffers as `List Nat`.
-/

namespace HubChunk

/-- Shapes are tuples of dimension sizes. -/
abbrev Shape := List Nat

/-- Modelled from the spec: `TensorMeta` (not under src/), the shared tensor
descriptor carrying `length`, the min/max shape envelope and the type tags. -/
structure TensorMeta where
  length : Nat
  minShape : List Nat
  maxShape : List Nat
  dtype : String
  htype : String
  deriving DecidableEq, Repr

/-- Modelled from the spec: `TensorMeta.update_shape_interval` widens the
min/max shape envelope componentwise, initialising both bounds from the first
registered shape. -/
def updateShapeInterval (m : TensorMeta) (shape : Shape) : TensorMeta :=
  if m.minShape.isEmpty then { m with minShape := shape, maxShape := shape }
  else { m with minShape := List.zipWith min m.minShape shape,
                maxShape := List.zipWith max m.maxShape shape }

/-- Modelled from the spec: registering `n` further samples of value `v` into
run-length rows (most recent run first; a row is `(value, run length)`): the
last run is extended when its value matches, otherwise a new run is appended. -/
def rleRegister {α : Type} [DecidableEq α] (v : α) (n : Nat) :
    List (α × Nat) → List (α × Nat)
  | [] => [(v, n)]
  | (w, c) :: rest => if v = w then (w, c + n) :: rest else (v, n) :: (w, c) :: rest

/-- Per-sample expansion of run-length rows, oldest sample first. -/
def rleDecode {α : Type} (rows : List (α × Nat)) : List α :=
  (rows.reverse.map fun r => List.replicate r.2 r.1).flatten

/-- Canonical run-length form of a per-sample list. -/
def rleEncode {α : Type} [DecidableEq α] (l : List α) : List (α × Nat) :=
  l.foldl (fun rows v => rleRegister v 1 rows) []

/-- Modelled from the spec: overwriting one index of a run-length encoder;
the store may split a run into up to three runs, and the observable per-sample
content is the original list with index `i` replaced. -/
def rleSet {α : Type} [DecidableEq α] (rows : List (α × Nat)) (i : Nat) (v : α) :
    List (α × Nat) :=
  rleEncode ((rleDecode rows).set i v)

/-- Constructor arguments of `BaseChunk.__init__` other than the encoded
arrays and the data block.  The grayscale toggle is the configuration flag
`hub.constants.CONVERT_GRAYSCALE`, passed explicitly per the spec's design
note on avoiding global state. -/
structure ChunkArgs where
  minChunkSize : Nat
  maxChunkSize : Nat
  tensorMeta : TensorMeta
  compression : Option String
  convertGrayscale : Bool
  deriving DecidableEq, Repr

/-- Modelled from the spec: the current chunk format version tag
(`hub.__version__`) as a byte string. -/
def currentVersion : List Nat := [50, 46, 48, 46, 53]

/-- Modelled from the spec: the codecs classified as image compressions by the
compression registry (`IMAGE_COMPRESSIONS`). -/
def imageCompressions : List String :=
  ["apng", "png", "jpeg", "tiff", "bmp", "ico", "gif", "wmf", "dib"]

/-- State of a `BaseChunk`: size budgets, borrowed tensor meta, compression
tag, format version, the two encoders, the data block and the cached tensor
dimensionality `num_dims`. -/
structure Chunk where
  minChunkSize : Nat
  maxChunkSize : Nat
  tensorMeta : TensorMeta
  compression : Option String
  convertGrayscale : Bool
  version : List Nat
  shapesEnc : List (Shape × Nat)
  bpsEnc : List (Nat × Nat)
  dataBytes : List Nat
  numDims : Option Nat
  deriving DecidableEq, Repr

/-- The serialized table of the shape encoder: one row per run, oldest first,
the shape's dimensions followed by the run length. -/
def seArr (rows : List (Shape × Nat)) : List (List Nat) :=
  rows.reverse.map fun r => r.1 ++ [r.2]

/-- Rebuilding shape-encoder rows from a serialized table. -/
def seFromArr (a : List (List Nat)) : List (Shape × Nat) :=
  (a.map fun r => (r.dropLast, r.getLastD 0)).reverse

/-- The serialized table of the byte-positions encoder: one row per run,
oldest first, as `(nbytes, first_start, run length)` where `first_start` is
the running total of bytes before the run. -/
def bpArrGo (t : Nat) : List (Nat × Nat) → List (List Nat)
  | [] => []
  | (nb, c) :: rest => [nb, t, c] :: bpArrGo (t + nb * c) rest

/-- Serialized byte-positions table of encoder rows (most recent run first). -/
def bpArr (rows : List (Nat × Nat)) : List (List Nat) :=
  bpArrGo 0 rows.reverse

/-- Rebuilding byte-positions rows from a serialized table; the middle
`first_start` column is redundant and recomputed on demand. -/
def bpFromArr (a : List (List Nat)) : List (Nat × Nat) :=
  (a.map fun r => (r.headD 0, r.getLastD 0)).reverse

/-- The `BaseChunk` constructor: encoders are built from the optional encoded
arrays, `num_dims` caches the tensor dimensionality when `max_shape` is known,
and the version starts at the current format version. -/
def mkChunk (args : ChunkArgs) (encodedShapes encodedBytePositions : List (List Nat))
    (data : List Nat) : Chunk :=
  { minChunkSize := args.minChunkSize
    maxChunkSize := args.maxChunkSize
    tensorMeta := args.tensorMeta
    compression := args.compression
    convertGrayscale := args.convertGrayscale
    version := currentVersion
    shapesEnc := seFromArr encodedShapes
    bpsEnc := bpFromArr encodedBytePositions
    dataBytes := data
    numDims := if args.tensorMeta.maxShape.isEmpty then none
               else some args.tensorMeta.maxShape.length }

/-- A chunk built from constructor arguments alone (`cls(*chunk_args)`). -/
def freshChunk (args : ChunkArgs) : Chunk := mkChunk args [] [] []

/-- The `num_data_bytes` property: length of the data block. -/
def Chunk.numDataBytes (c : Chunk) : Nat := c.dataBytes.length

/-- The `htype` property, read from the tensor meta. -/
def Chunk.htype (c : Chunk) : String := c.tensorMeta.htype

/-- The `is_text_like` flag set in `__init__`. -/
def Chunk.isTextLike (c : Chunk) : Bool :=
  c.htype == "json" || c.htype == "list" || c.htype == "text"

/-- The `is_convert_candidate` flag set in `__init__`: htype is `image` or the
compression is an image codec. -/
def Chunk.isConvertCandidate (c : Chunk) : Bool :=
  c.htype == "image" ||
    (match c.compression with
     | some comp => imageCompressions.contains comp
     | none => false)

/-- Per-sample byte counts recorded by the byte-positions encoder. -/
def nbList (c : Chunk) : List Nat := rleDecode c.bpsEnc

/-- Per-sample shapes recorded by the shape encoder. -/
def shapesList (c : Chunk) : List Shape := rleDecode c.shapesEnc

/-- Number of samples registered in the chunk (shape-encoder count). -/
def Chunk.numSamples (c : Chunk) : Nat := (shapesList c).length

/-- Start offset of sample `i` in the data block: total bytes of the samples
before it (the byte-positions lookup `first_start + k * nbytes` in closed
form over the per-sample expansion). -/
def startByte (c : Chunk) (i : Nat) : Nat := ((nbList c).take i).sum

/-- End offset of sample `i`: its start plus its byte count. -/
def endByte (c : Chunk) (i : Nat) : Nat := startByte c i + (nbList c).getD i 0

/-- The byte-positions encoder lookup `byte_positions_encoder[i]`, returning
the absolute range `(start, end)` of sample `i`. -/
def bpGet (c : Chunk) (i : Nat) : Option (Nat × Nat) :=
  match (nbList c)[i]? with
  | none => none
  | some nb => some (startByte c i, startByte c i + nb)

/-- The shape-encoder lookup `shapes_encoder[i]`. -/
def readShape (c : Chunk) (i : Nat) : Option Shape := (shapesList c)[i]?

/-- Reading back the raw stored bytes of sample `i`: the slice of the data
block designated by the byte-positions encoder (the uncompressed read path). -/
def readSampleBytes (c : Chunk) (i : Nat) : Option (List Nat) :=
  (bpGet c i).map fun se => (c.dataBytes.drop se.1).take (se.2 - se.1)

/-- Errors surfaced by the chunk, matching the spec's error taxonomy:
`invalidSampleShape` embeds `TensorInvalidSampleShapeError`, and
`invalidSampleType` embeds the `TypeError` raised by `serialize_sample` for an
unsupported value. -/
inductive ChunkError where
  | invalidSampleShape (shape : Shape) (expectedDims : Nat)
  | invalidSampleType (typeName : String)
  | indexOutOfRange
  deriving DecidableEq, Repr

/-- `BaseChunk.can_fit_sample`: the admission test
`num_data_bytes + buffer_nbytes + sample_nbytes < min_chunk_size`. -/
def canFitSample (c : Chunk) (sampleNbytes : Nat) (bufferNbytes : Nat := 0) : Bool :=
  decide (c.numDataBytes + bufferNbytes + sampleNbytes < c.minChunkSize)

/-- `BaseChunk.register_sample_to_headers`: one sample's shape goes to the
shape encoder and, when byte positions are tracked, its byte count goes to
the byte-positions encoder. -/
def registerSampleToHeaders (c : Chunk) (incomingNumBytes : Option Nat)
    (sampleShape : Shape) : Chunk :=
  let c1 := { c with shapesEnc := rleRegister sampleShape 1 c.shapesEnc }
  match incomingNumBytes with
  | some nb => { c1 with bpsEnc := rleRegister nb 1 c1.bpsEnc }
  | none => c1

/-- `BaseChunk.register_in_meta_and_headers`: header registration followed by
the tensor-meta length increment and envelope widening. -/
def registerInMetaAndHeaders (c : Chunk) (sampleNbytes : Option Nat)
    (shape : Shape) : Chunk :=
  let c1 := registerSampleToHeaders c sampleNbytes shape
  let m1 := { c1.tensorMeta with length := c1.tensorMeta.length + 1 }
  { c1 with tensorMeta := updateShapeInterval m1 shape }

/-- Modelled from the spec: the write data flow of the uncompressed chunk
(`extend_if_has_space` body, not under src/) for one admitted sample — the
serialized bytes are appended to the data block and the sample is registered
in headers and meta with its byte count tracked. -/
def appendSample (c : Chunk) (buf : List Nat) (shape : Shape) : Chunk :=
  registerInMetaAndHeaders { c with dataBytes := c.dataBytes ++ buf }
    (some buf.length) shape

/-- `BaseChunk.check_shape_for_update`: the new shape must have the
dimensionality of the shape currently stored at the index. -/
def checkShapeForUpdate (c : Chunk) (i : Nat) (shape : Shape) : Option ChunkError :=
  match readShape c i with
  | none => some ChunkError.indexOutOfRange
  | some cur =>
    if cur.length ≠ shape.length then
      some (ChunkError.invalidSampleShape shape cur.length)
    else none

/-- `BaseChunk.create_buffer_with_updated_data`: the old prefix, the new
sample bytes, then the old suffix (the source preallocates the exact total
and copies the three parts). -/
def createBufferWithUpdatedData (c : Chunk) (i : Nat) (newSampleBytes : List Nat) :
    Option (List Nat) :=
  (bpGet c i).map fun se =>
    c.dataBytes.take se.1 ++ newSampleBytes ++ c.dataBytes.drop se.2

/-- `BaseChunk.update_in_meta_and_headers`: overwrite the byte count (when
tracked) and the shape at the index, then widen the envelope. -/
def updateInMetaAndHeaders (c : Chunk) (i : Nat) (sampleNbytes : Option Nat)
    (shape : Shape) : Chunk :=
  let c1 := match sampleNbytes with
    | some nb => { c with bpsEnc := rleSet c.bpsEnc i nb }
    | none => c
  { c1 with shapesEnc := rleSet c1.shapesEnc i shape,
            tensorMeta := updateShapeInterval c1.tensorMeta shape }

/-- Modelled from the spec: `update_sample` of the uncompressed chunk (the
method is abstract in `BaseChunk`), composing the source helpers in the
spec's order — dimensionality check first, then the splice, then the header
and meta updates.  The error, when any, is returned beside the (then
untouched) chunk. -/
def updateSample (c : Chunk) (i : Nat) (newBuf : List Nat) (newShape : Shape) :
    Chunk × Option ChunkError :=
  match checkShapeForUpdate c i newShape with
  | some e => (c, some e)
  | none =>
    match createBufferWithUpdatedData c i newBuf with
    | none => (c, some ChunkError.indexOutOfRange)
    | some newData =>
      (updateInMetaAndHeaders { c with dataBytes := newData } i
        (some newBuf.length) newShape, none)

/-- `BaseChunk.normalize_shape`: an empty shape becomes `(1,)`. -/
def normalizeShape : Option Shape → Option Shape
  | some sh => if sh.isEmpty then some [1] else some sh
  | none => none

/-- `BaseChunk.convert_to_rgb`: when the chunk is a convert candidate and the
grayscale toggle is on, record the tensor dimensionality if unknown, and widen
a 2-D shape by a trailing 1 exactly when that dimensionality is 3.  The
returned flag records whether the grayscale warning was emitted. -/
def convertToRgb (c : Chunk) (shape : Shape) : Chunk × Shape × Bool :=
  if c.isConvertCandidate && c.convertGrayscale then
    let nd := c.numDims.getD shape.length
    let c1 := { c with numDims := some nd }
    if shape.length == 2 && nd == 3 then (c1, shape ++ [1], true)
    else (c1, shape, false)
  else (c, shape, false)

/-- Modelled from the spec: `SampleTiles` (not under src/), a finite
non-restartable sequence of tile buffers, each with its tile shape, together
with the overall sample shape; `yielded` counts the tiles already consumed,
and `is_first_write` holds exactly after the first tile was yielded. -/
structure SampleTiles where
  tiles : List (List Nat × Shape)
  sampleShape : Shape
  yielded : Nat
  deriving DecidableEq, Repr

/-- `BaseChunk.write_tile`: consume one tile, make it the chunk's data block,
register the tile shape and tile byte count in the headers, and update the
tensor meta (length increment and envelope widening with the full sample
shape) only on the first write. -/
def writeTile (c : Chunk) (st : SampleTiles) : Chunk × SampleTiles :=
  let st2 : SampleTiles := { st with yielded := st.yielded + 1 }
  match st.tiles[st.yielded]? with
  | none => (c, st2)
  | some tl =>
    let c1 := registerSampleToHeaders { c with dataBytes := tl.1 }
      (some tl.1.length) tl.2
    if st2.yielded == 1 then
      let m1 := { c1.tensorMeta with length := c1.tensorMeta.length + 1 }
      ({ c1 with tensorMeta := updateShapeInterval m1 st.sampleShape }, st2)
    else (c1, st2)

/-- Modelled from the spec: the tiled-write loop — the caller writes each
tile into a consecutive fresh chunk via `write_tile`, threading the shared
tensor meta from chunk to chunk; returns the final meta, the consumed tile
state and the written chunks. -/
def writeTilesGo (args : ChunkArgs) :
    TensorMeta → SampleTiles → Nat → TensorMeta × SampleTiles × List Chunk
  | meta, st, 0 => (meta, st, [])
  | meta, st, n + 1 =>
    let c0 := freshChunk { args with tensorMeta := meta }
    let r1 := writeTile c0 st
    let r2 := writeTilesGo args r1.1.tensorMeta r1.2 n
    (r2.1, r2.2.1, r1.1 :: r2.2.2)

/-- The tagged sample-value variants dispatched on by `serialize_sample`,
per the spec's closed sum over the runtime types the source tests with
`isinstance`.  `unsupported` stands for any other runtime type, carrying its
type name.  Scalar payloads are stand-ins; their content never matters to the
dispatch. -/
inductive SampleValue where
  | bytesVal (b : List Nat)
  | sampleObj (b : List Nat) (shape : Shape)
  | ndarrayVal (data : List Int) (shape : Shape)
  | listVal (elems : List Int)
  | intVal (n : Int)
  | floatVal (mantissa : Int) (exponent : Int)
  | boolVal (b : Bool)
  | textVal (s : String)
  | dictVal (keys : List String)
  | tiles (st : SampleTiles)
  | unsupported (typeName : String)
  deriving DecidableEq, Repr

/-- The Python type name of a sample value, as it appears in the `TypeError`
message of `serialize_sample`. -/
def typeNameOf : SampleValue → String
  | .bytesVal _ => "bytes"
  | .sampleObj _ _ => "Sample"
  | .ndarrayVal _ _ => "ndarray"
  | .listVal _ => "list"
  | .intVal _ => "int"
  | .floatVal _ _ => "float"
  | .boolVal _ => "bool"
  | .textVal _ => "str"
  | .dictVal _ => "dict"
  | .tiles _ => "SampleTiles"
  | .unsupported n => n

/-- Whether a value lands in the numeric-and-base-types `isinstance` tuple of
`serialize_sample`: ndarray, list, int, float, bool and their numpy kin. -/
def isNumericLike : SampleValue → Bool
  | .ndarrayVal _ _ => true
  | .listVal _ => true
  | .intVal _ => true
  | .floatVal _ _ => true
  | .boolVal _ => true
  | _ => false

/-- The serialized payload returned by `serialize_sample`: either sample
bytes, or the untouched `SampleTiles` handle. -/
inductive SerializedPayload where
  | bytes (b : List Nat)
  | tiles (st : SampleTiles)
  deriving DecidableEq, Repr

/-- Modelled from the spec: the external serialize helpers imported from
`hub.core.serialize` (not under src/) — `serialize_text`,
`serialize_sample_object` and `serialize_numpy_and_base_types` — kept
abstract as a record of functions so that the dispatch of
`serialize_sample` is settled for every behaviour of these helpers. -/
structure SerializeExt where
  serText : String → SampleValue → Except ChunkError (List Nat × Shape)
  serSampleObject : List Nat → Shape → Except ChunkError (List Nat × Shape)
  serNumeric : SampleValue → Except ChunkError (List Nat × Shape)

/-- A concrete instance of the external serialize helpers, for evaluation on
closed inputs: text-like values become their character bytes, sample objects
and numeric values pass through a fixed placeholder encoding. -/
def defaultExt : SerializeExt where
  serText := fun _ v =>
    match v with
    | .textVal s => .ok (s.toList.map Char.toNat, [s.length])
    | .listVal l => .ok (l.map Int.natAbs, [l.length])
    | .dictVal k => .ok ([], [k.length])
    | _ => .ok ([], [1])
  serSampleObject := fun b sh => .ok (b, sh)
  serNumeric := fun v =>
    match v with
    | .ndarrayVal d sh => .ok (d.map Int.natAbs, sh)
    | .listVal l => .ok (l.map Int.natAbs, [l.length])
    | _ => .ok ([0], [])

/-- `BaseChunk.serialize_sample`: the dispatch on the input variant.  A
text-like chunk routes every value to `serialize_text`; otherwise `Sample`
objects go through `serialize_sample_object` and grayscale conversion,
raw bytes pass through with no shape, the numeric tuple goes through
`serialize_numpy_and_base_types`, a `SampleTiles` handle is returned as is
with the full sample shape, and any other value raises the type error.  The
resulting shape is normalized. -/
def serializeSample (ext : SerializeExt) (c : Chunk) (v : SampleValue) :
    Except ChunkError (Chunk × SerializedPayload × Option Shape) :=
  if c.isTextLike then
    (ext.serText c.htype v).map fun bs =>
      (c, .bytes bs.1, normalizeShape (some bs.2))
  else
    match v with
    | .sampleObj b sh =>
      (ext.serSampleObject b sh).map fun bs =>
        ((convertToRgb c bs.2).1, .bytes bs.1,
          normalizeShape (some (convertToRgb c bs.2).2.1))
    | .bytesVal b => .ok (c, .bytes b, normalizeShape none)
    | .tiles st => .ok (c, .tiles st, normalizeShape (some st.sampleShape))
    | w =>
      if isNumericLike w then
        (ext.serNumeric w).map fun bs =>
          (c, .bytes bs.1, normalizeShape (some bs.2))
      else .error (ChunkError.invalidSampleType (typeNameOf w))

/-- Little-endian four-byte encoding of a natural number, as in the chunk
codec's integer fields. -/
def u4 (n : Nat) : List Nat :=
  [n % 256, n / 256 % 256, n / 65536 % 256, n / 16777216 % 256]

/-- Reading one little-endian four-byte integer. -/
def readU4 : List Nat → Option (Nat × List Nat)
  | b0 :: b1 :: b2 :: b3 :: rest =>
    some (b0 + 256 * b1 + 65536 * b2 + 16777216 * b3, rest)
  | _ => none

/-- Reading `n` consecutive four-byte integers. -/
def readU4s : Nat → List Nat → Option (List Nat × List Nat)
  | 0, l => some ([], l)
  | n + 1, l =>
    (readU4 l).bind fun vr =>
      (readU4s n vr.2).map fun vs => (vr.1 :: vs.1, vs.2)

/-- Reading `n` raw bytes. -/
def readBytes (n : Nat) (l : List Nat) : Option (List Nat × List Nat) :=
  if n ≤ l.length then some (l.take n, l.drop n) else none

/-- Modelled from the spec: one serialized encoder-table row — its length as
a four-byte integer, then its entries as four-byte integers. -/
def encRow (r : List Nat) : List Nat :=
  u4 r.length ++ (r.map u4).flatten

/-- Modelled from the spec: a serialized encoder table — its row count as a
four-byte integer, then its rows. -/
def encTable (t : List (List Nat)) : List Nat :=
  u4 t.length ++ (t.map encRow).flatten

/-- Parsing one encoder-table row. -/
def readRow (l : List Nat) : Option (List Nat × List Nat) :=
  (readU4 l).bind fun nr => readU4s nr.1 nr.2

/-- Parsing `n` encoder-table rows. -/
def readRows : Nat → List Nat → Option (List (List Nat) × List Nat)
  | 0, l => some ([], l)
  | n + 1, l =>
    (readRow l).bind fun rr =>
      (readRows n rr.2).map fun rs => (rr.1 :: rs.1, rs.2)

/-- Parsing an encoder table. -/
def readTable (l : List Nat) : Option (List (List Nat) × List Nat) :=
  (readU4 l).bind fun nr => readRows nr.1 nr.2

/-- Modelled from the spec: `serialize_chunk` (not under src/) — the
version length and bytes, the two encoder tables, then the raw data block,
one contiguous byte buffer. -/
def serializeChunk (version : List Nat) (shapesArr bpsArr : List (List Nat))
    (data : List Nat) : List Nat :=
  u4 version.length ++ version ++ encTable shapesArr ++ encTable bpsArr ++ data

/-- Modelled from the spec: `deserialize_chunk` (not under src/) — parse the
version, the two encoder tables, and take the remainder as the data block;
`none` is the malformed-buffer outcome (`ChunkFormatError`). -/
def deserializeChunk (buffer : List Nat) :
    Option (List Nat × List (List Nat) × List (List Nat) × List Nat) :=
  (readU4 buffer).bind fun vl =>
    (readBytes vl.1 vl.2).bind fun ver =>
      (readTable ver.2).bind fun sa =>
        (readTable sa.2).map fun ba => (ver.1, sa.1, ba.1, ba.2)

/-- Modelled from the spec: `infer_chunk_num_bytes` (not under src/) — the
exact serialized length computed from the version, the encoder tables and the
data length, without materializing the buffer. -/
def inferChunkNumBytes (version : List Nat) (shapesArr bpsArr : List (List Nat))
    (lenData : Nat) : Nat :=
  4 + version.length +
    (4 + (shapesArr.map fun r => 4 + 4 * r.length).sum) +
    (4 + (bpsArr.map fun r => 4 + 4 * r.length).sum) + lenData

/-- `BaseChunk.tobytes`: serialize the version, the two encoder arrays and
the data block. -/
def tobytes (c : Chunk) : List Nat :=
  serializeChunk c.version (seArr c.shapesEnc) (bpArr c.bpsEnc) c.dataBytes

/-- `BaseChunk.nbytes`: the serialized size computed via
`infer_chunk_num_bytes` without serializing. -/
def Chunk.nbytes (c : Chunk) : Nat :=
  inferChunkNumBytes c.version (seArr c.shapesEnc) (bpArr c.bpsEnc)
    c.dataBytes.length

/-- `BaseChunk.frombuffer`: an empty buffer yields a fresh chunk from the
constructor arguments alone; otherwise the buffer is parsed and the chunk is
rebuilt from the parsed encoder tables and data, keeping the parsed version. -/
def frombuffer (args : ChunkArgs) (buffer : List Nat) : Option Chunk :=
  if buffer.isEmpty then some (freshChunk args)
  else
    match deserializeChunk buffer with
    | none => none
    | some p => some { mkChunk args p.2.1 p.2.2.1 p.2.2.2 with version := p.1 }

/-- `BaseChunk.copy`: the round trip through `tobytes` and `frombuffer`. -/
def copyChunk (c : Chunk) (args : ChunkArgs) : Option Chunk :=
  frombuffer args (tobytes c)

/-- One public mutation of the write path: registering a fresh sample or
updating an existing one in place. -/
inductive ChunkOp where
  | appendOp (buf : List Nat) (shape : Shape)
  | updateOp (i : Nat) (buf : List Nat) (shape : Shape)
  deriving DecidableEq, Repr

/-- Applying one mutation; a failed update leaves the chunk as it was. -/
def applyOp (c : Chunk) : ChunkOp → Chunk
  | .appendOp buf shape => appendSample c buf shape
  | .updateOp i buf shape => (updateSample c i buf shape).1

/-- Applying a sequence of mutations in order. -/
def applyOps (c : Chunk) (ops : List ChunkOp) : Chunk := ops.foldl applyOp c

/-- Bookkeeping invariant of a chunk with tracked byte positions: the encoder
byte counts sum to the data-block length, and both encoders hold one entry
per sample. -/
def Chunk.wfCounts (c : Chunk) : Prop :=
  (nbList c).sum = c.dataBytes.length ∧ (shapesList c).length = (nbList c).length

instance (c : Chunk) : Decidable c.wfCounts := by
  unfold Chunk.wfCounts
  infer_instance

/-- The partition property of the per-sample byte ranges: they start at zero,
are contiguous, monotonically increasing, non-overlapping, and their union is
exactly the interval from zero to the data-block length. -/
def rangesPartition (c : Chunk) : Prop :=
  startByte c 0 = 0 ∧
  startByte c c.numSamples = c.dataBytes.length ∧
  (∀ i, i < c.numSamples → endByte c i = startByte c (i + 1)) ∧
  (∀ i j, i ≤ j → startByte c i ≤ startByte c j) ∧
  (∀ i j, i < j → endByte c i ≤ startByte c j) ∧
  (∀ b, b < c.dataBytes.length ↔
    ∃ i, i < c.numSamples ∧ startByte c i ≤ b ∧ b < endByte c i)

/-- Bounds under which an encoder table serializes reversibly with four-byte
integer fields: row count, row lengths and entries all fit in four bytes. -/
def tableOK (t : List (List Nat)) : Prop :=
  t.length < 4294967296 ∧
    ∀ r ∈ t, r.length < 4294967296 ∧ ∀ x ∈ r, x < 4294967296

instance (t : List (List Nat)) : Decidable (tableOK t) := by
  unfold tableOK
  infer_instance

/-- Bounds under which a chunk serializes reversibly: the version length and
both encoder tables fit the four-byte integer fields of the codec. -/
def chunkSerOK (c : Chunk) : Prop :=
  c.version.length < 4294967296 ∧
    tableOK (seArr c.shapesEnc) ∧ tableOK (bpArr c.bpsEnc)

instance (c : Chunk) : Decidable (chunkSerOK c) := by
  unfold chunkSerOK
  infer_instance

/-- Whether `serialize_sample` raised the unsupported-type error. -/
def resultTypeError {X : Type} : Except ChunkError X → Bool
  | .error (ChunkError.invalidSampleType _) => true
  | _ => false

/-- The external serialize helpers never raise the unsupported-type error
themselves (they raise cast or codec errors at worst). -/
def extNoTypeErrors (ext : SerializeExt) : Prop :=
  (∀ h v, resultTypeError (ext.serText h v) = false) ∧
  (∀ b sh, resultTypeError (ext.serSampleObject b sh) = false) ∧
  (∀ v, resultTypeError (ext.serNumeric v) = false)

/-- The variants accepted by the `serialize_sample` dispatch of a chunk that
is not text-like: bytes, `Sample` objects, the numeric tuple, and
`SampleTiles`. -/
def supportedNonText : SampleValue → Bool
  | .bytesVal _ => true
  | .sampleObj _ _ => true
  | .tiles _ => true
  | w => isNumericLike w

/-- A small tensor meta for concrete evaluations. -/
def exMeta : TensorMeta :=
  { length := 0, minShape := [], maxShape := [], dtype := "uint8",
    htype := "generic" }

/-- Constructor arguments for concrete evaluations. -/
def exArgs : ChunkArgs :=
  { minChunkSize := 16, maxChunkSize := 32, tensorMeta := exMeta,
    compression := none, convertGrayscale := false }

/-- A concrete chunk holding two samples: bytes `[1, 2]` of shape `(2,)` and
bytes `[3, 4, 5]` of shape `(3,)`. -/
def exChunk : Chunk :=
  appendSample (appendSample (freshChunk exArgs) [1, 2] [2]) [3, 4, 5] [3]

/-- A concrete image-htype tensor meta whose recorded dimensionality is 2. -/
def exImageMeta : TensorMeta :=
  { exMeta with htype := "image", minShape := [10, 10], maxShape := [10, 10] }

/-- A concrete image-htype chunk with grayscale conversion enabled whose
tensor dimensionality is 2. -/
def exImageChunk : Chunk :=
  freshChunk { exArgs with tensorMeta := exImageMeta, convertGrayscale := true }

/-- A concrete two-tile sequence of an oversize sample of shape `(4,)`. -/
def exTiles : SampleTiles :=
  { tiles := [([1, 2], [2]), ([3, 4], [2])], sampleShape := [4], yielded := 0 }

/-- A concrete operation sequence: one append followed by one in-place
update. -/
def exOps : List ChunkOp :=
  [ChunkOp.appendOp [1, 2] [2], ChunkOp.updateOp 0 [9, 9, 9] [3]]

theorem rleDecode_nil {α : Type} : rleDecode ([] : List (α × Nat)) = [] := rfl

theorem rleDecode_register {α : Type} [DecidableEq α] (v : α) (n : Nat)
    (rows : List (α × Nat)) :
    rleDecode (rleRegister v n rows) = rleDecode rows ++ List.replicate n v := by
  cases rows with
  | nil => simp [rleRegister, rleDecode]
  | cons hd tl =>
    obtain ⟨w, c⟩ := hd
    by_cases hv : v = w
    · subst hv
      simp only [rleRegister, if_pos rfl, ite_true, eq_self_iff_true,
        rleDecode, List.reverse_cons,
        List.map_append, List.map_cons, List.map_nil, List.flatten_append,
        List.flatten_cons, List.flatten_nil, List.append_nil,
        List.replicate_add, List.append_assoc]
    · simp only [rleRegister, if_neg hv, rleDecode, List.reverse_cons,
        List.map_append, List.map_cons, List.map_nil, List.flatten_append,
        List.flatten_cons, List.flatten_nil, List.append_nil,
        List.append_assoc]

theorem rleEncode_concat {α : Type} [DecidableEq α] (l : List α) (a : α) :
    rleEncode (l ++ [a]) = rleRegister a 1 (rleEncode l) := by
  simp [rleEncode, List.foldl_append]

theorem rleDecode_encode {α : Type} [DecidableEq α] (l : List α) :
    rleDecode (rleEncode l) = l := by
  induction l using List.reverseRecOn with
  | nil => simp [rleEncode, rleDecode]
  | append_singleton l a ih =>
    rw [rleEncode_concat, rleDecode_register, ih]
    rfl

theorem rleDecode_set {α : Type} [DecidableEq α] (rows : List (α × Nat))
    (i : Nat) (v : α) :
    rleDecode (rleSet rows i v) = (rleDecode rows).set i v :=
  rleDecode_encode _

theorem sum_take_mono (l : List Nat) {j k : Nat} (h : j ≤ k) :
    (l.take j).sum ≤ (l.take k).sum := by
  have h1 : (l.take k).take j = l.take j := by
    rw [List.take_take, min_eq_left h]
  calc (l.take j).sum = ((l.take k).take j).sum := by rw [h1]
    _ ≤ ((l.take k).take j).sum + ((l.take k).drop j).sum := Nat.le_add_right _ _
    _ = (l.take k).sum := by rw [← List.sum_append, List.take_append_drop]

theorem sum_take_le (l : List Nat) (j : Nat) : (l.take j).sum ≤ l.sum := by
  conv_rhs => rw [← List.take_append_drop j l]
  rw [List.sum_append]
  exact Nat.le_add_right _ _

theorem sum_take_succ_getD (l : List Nat) (i : Nat) (h : i < l.length) :
    (l.take (i + 1)).sum = (l.take i).sum + l.getD i 0 := by
  rw [List.sum_take_succ l i h, List.getD_eq_getElem l 0 h]

theorem sum_set_add (l : List Nat) (i v : Nat) (h : i < l.length) :
    (l.set i v).sum + l.getD i 0 = l.sum + v := by
  induction l generalizing i with
  | nil => simp at h
  | cons a t ih =>
    cases i with
    | zero => simp [List.set]; omega
    | succ n =>
      have hn : n < t.length := by simp at h; omega
      have := ih n hn
      simp only [List.set, List.sum_cons, List.getD_cons_succ]
      omega

theorem take_set_of_le {α : Type} (l : List α) (i j : Nat) (v : α) (h : j ≤ i) :
    (l.set i v).take j = l.take j := by
  rw [List.set_take]
  refine List.set_eq_of_length_le ?_
  rw [List.length_take]
  omega

theorem sum_take_set_of_le (l : List Nat) (i j v : Nat) (h : j ≤ i) :
    ((l.set i v).take j).sum = (l.take j).sum := by
  rw [take_set_of_le l i j v h]

theorem sum_take_set_add (l : List Nat) (i j v : Nat) (hij : i < j)
    (hi : i < l.length) :
    ((l.set i v).take j).sum + l.getD i 0 = (l.take j).sum + v := by
  rw [List.set_take]
  have hi' : i < (l.take j).length := by
    simp only [List.length_take]
    omega
  have := sum_set_add (l.take j) i v hi'
  have hg : (l.take j).getD i 0 = l.getD i 0 := by
    rw [List.getD_eq_getElem _ 0 hi', List.getD_eq_getElem l 0 hi]
    simp [List.getElem_take]
  omega

theorem slice_append_left {α : Type} (a b : List α) (s n : Nat)
    (h : s + n ≤ a.length) :
    ((a ++ b).drop s).take n = (a.drop s).take n := by
  rw [List.drop_append_of_le_length (by omega)]
  rw [List.take_append_of_le_length (by simp [List.length_drop]; omega)]

theorem slice_append_right {α : Type} (a b : List α) (s n : Nat) :
    ((a ++ b).drop (a.length + s)).take n = (b.drop s).take n := by
  rw [List.drop_append s]

theorem slice_take {α : Type} (l : List α) (t s n : Nat) (h : s + n ≤ t) :
    ((l.take t).drop s).take n = (l.drop s).take n := by
  rw [List.drop_take, List.take_take]
  congr 1
  omega

theorem mem_ranges_iff (l : List Nat) (b : Nat) :
    b < l.sum ↔
      ∃ i, i < l.length ∧ (l.take i).sum ≤ b ∧ b < (l.take i).sum + l.getD i 0 := by
  constructor
  · intro hb
    induction l generalizing b with
    | nil => simp at hb
    | cons a t ih =>
      by_cases hba : b < a
      · exact ⟨0, by simp, by simp, by simpa using hba⟩
      · have hb' : b - a < t.sum := by
          simp only [List.sum_cons] at hb
          omega
        obtain ⟨i, hi, h1, h2⟩ := ih (b - a) hb'
        refine ⟨i + 1, by simpa using hi, ?_, ?_⟩
        · simp only [List.take_succ_cons, List.sum_cons]
          omega
        · simp only [List.take_succ_cons, List.sum_cons, List.getD_cons_succ]
          omega
  · rintro ⟨i, hi, _, h2⟩
    calc b < (l.take i).sum + l.getD i 0 := h2
      _ = (l.take (i + 1)).sum := (sum_take_succ_getD l i hi).symm
      _ ≤ l.sum := sum_take_le l (i + 1)

theorem getElem?_some_lt {α : Type} {l : List α} {i : Nat} {a : α}
    (h : l[i]? = some a) : i < l.length := by
  by_contra hc
  rw [List.getElem?_eq_none (by omega)] at h
  exact Option.noConfusion h

theorem appendSample_dataBytes (c : Chunk) (buf : List Nat) (shape : Shape) :
    (appendSample c buf shape).dataBytes = c.dataBytes ++ buf := rfl

theorem appendSample_bpsEnc (c : Chunk) (buf : List Nat) (shape : Shape) :
    (appendSample c buf shape).bpsEnc = rleRegister buf.length 1 c.bpsEnc := rfl

theorem appendSample_shapesEnc (c : Chunk) (buf : List Nat) (shape : Shape) :
    (appendSample c buf shape).shapesEnc = rleRegister shape 1 c.shapesEnc := rfl

theorem nbList_appendSample (c : Chunk) (buf : List Nat) (shape : Shape) :
    nbList (appendSample c buf shape) = nbList c ++ [buf.length] := by
  rw [nbList, appendSample_bpsEnc, rleDecode_register]
  rfl

theorem shapesList_appendSample (c : Chunk) (buf : List Nat) (shape : Shape) :
    shapesList (appendSample c buf shape) = shapesList c ++ [shape] := by
  rw [shapesList, appendSample_shapesEnc, rleDecode_register]
  rfl

theorem bpGet_eq (c : Chunk) (i : Nat) (h : i < (nbList c).length) :
    bpGet c i = some (startByte c i, startByte c i + (nbList c).getD i 0) := by
  unfold bpGet
  rw [List.getElem?_eq_getElem h, List.getD_eq_getElem _ 0 h]

theorem bpGet_elim (c : Chunk) (i s e : Nat) (hb : bpGet c i = some (s, e)) :
    i < (nbList c).length ∧ s = startByte c i ∧
      e = startByte c i + (nbList c).getD i 0 := by
  unfold bpGet at hb
  cases h : (nbList c)[i]? with
  | none => rw [h] at hb; exact absurd hb (by simp)
  | some nb =>
    rw [h] at hb
    have hlen : i < (nbList c).length := getElem?_some_lt h
    have hnb : (nbList c).getD i 0 = nb := by
      rw [List.getD_eq_getElem?_getD, h]
      rfl
    simp only [Option.some_inj, Prod.mk.injEq] at hb
    exact ⟨hlen, hb.1.symm, by omega⟩

theorem updateSample_fst_of_error (c : Chunk) (i : Nat) (buf : List Nat)
    (shape : Shape) (h : (updateSample c i buf shape).2 ≠ none) :
    (updateSample c i buf shape).1 = c := by
  unfold updateSample at *
  cases hc : checkShapeForUpdate c i shape with
  | some e => simp [hc]
  | none =>
    cases hb : createBufferWithUpdatedData c i buf with
    | none => simp [hc, hb]
    | some nd => simp [hc, hb] at h

theorem updateSample_ok_elim (c : Chunk) (i : Nat) (buf : List Nat)
    (shape : Shape) (he : (updateSample c i buf shape).2 = none) :
    checkShapeForUpdate c i shape = none ∧ ∃ s e, bpGet c i = some (s, e) := by
  unfold updateSample at he
  cases hc : checkShapeForUpdate c i shape with
  | some e => rw [hc] at he; simp at he
  | none =>
    rw [hc] at he
    cases hb : createBufferWithUpdatedData c i buf with
    | none => rw [hb] at he; simp at he
    | some nd =>
      refine ⟨rfl, ?_⟩
      unfold createBufferWithUpdatedData at hb
      obtain ⟨se, hse, -⟩ := Option.map_eq_some'.mp hb
      exact ⟨se.1, se.2, by simpa using hse⟩

theorem updateSample_eq (c : Chunk) (i : Nat) (buf : List Nat) (shape : Shape)
    (hc : checkShapeForUpdate c i shape = none) (s e : Nat)
    (hb : bpGet c i = some (s, e)) :
    updateSample c i buf shape =
      ({ c with
          dataBytes := c.dataBytes.take s ++ buf ++ c.dataBytes.drop e,
          bpsEnc := rleSet c.bpsEnc i buf.length,
          shapesEnc := rleSet c.shapesEnc i shape,
          tensorMeta := updateShapeInterval c.tensorMeta shape }, none) := by
  unfold updateSample createBufferWithUpdatedData
  rw [hc, hb]
  rfl

theorem wf_appendSample (c : Chunk) (buf : List Nat) (shape : Shape)
    (h : c.wfCounts) : (appendSample c buf shape).wfCounts := by
  unfold Chunk.wfCounts at *
  rw [nbList_appendSample, shapesList_appendSample, appendSample_dataBytes]
  simp only [List.sum_append, List.length_append, List.sum_cons, List.sum_nil,
    List.length_cons, List.length_nil]
  omega

theorem startByte_le_data (c : Chunk) (i : Nat) (h : c.wfCounts) :
    startByte c i ≤ c.dataBytes.length := by
  rw [startByte, ← h.1]
  exact sum_take_le _ _

theorem endByte_le_data (c : Chunk) (i : Nat) (h : c.wfCounts)
    (hi : i < (nbList c).length) :
    startByte c i + (nbList c).getD i 0 ≤ c.dataBytes.length := by
  have h1 := sum_take_succ_getD (nbList c) i hi
  have h2 := sum_take_le (nbList c) (i + 1)
  have h3 := h.1
  rw [startByte]
  omega

theorem wf_updateSample (c : Chunk) (i : Nat) (buf : List Nat) (shape : Shape)
    (h : c.wfCounts) : ((updateSample c i buf shape).1).wfCounts := by
  by_cases he : (updateSample c i buf shape).2 = none
  · obtain ⟨hc, s, e, hb⟩ := updateSample_ok_elim c i buf shape he
    obtain ⟨hi, hs, hee⟩ := bpGet_elim c i s e hb
    rw [updateSample_eq c i buf shape hc s e hb]
    unfold Chunk.wfCounts at *
    constructor
    · show (rleDecode (rleSet c.bpsEnc i buf.length)).sum =
        (c.dataBytes.take s ++ buf ++ c.dataBytes.drop e).length
      rw [rleDecode_set]
      have h1 := sum_set_add (nbList c) i buf.length hi
      have h2 : s ≤ c.dataBytes.length := hs ▸ startByte_le_data c i h
      have h3 : e ≤ c.dataBytes.length := by
        rw [hee]
        exact endByte_le_data c i h hi
      simp only [List.length_append, List.length_take, List.length_drop]
      unfold nbList at *
      omega
    · show (rleDecode (rleSet c.shapesEnc i shape)).length =
        (rleDecode (rleSet c.bpsEnc i buf.length)).length
      rw [rleDecode_set, rleDecode_set, List.length_set, List.length_set]
      exact h.2
  · rw [updateSample_fst_of_error c i buf shape he]
    exact h

theorem wf_applyOps (c : Chunk) (ops : List ChunkOp) (h : c.wfCounts) :
    (applyOps c ops).wfCounts := by
  induction ops generalizing c with
  | nil => exact h
  | cons op rest ih =>
    rw [applyOps, List.foldl_cons]
    refine ih _ ?_
    cases op with
    | appendOp buf shape => exact wf_appendSample c buf shape h
    | updateOp i buf shape => exact wf_updateSample c i buf shape h

/-- C1: for every chunk state and all byte counts, `can_fit_sample` returns
true exactly when `num_data_bytes + buffer_nbytes + sample_nbytes` is
strictly below `min_chunk_size`; in particular a sample whose admission would
land the total exactly at `min_chunk_size` is rejected. -/
theorem can_fit_sample_spec (c : Chunk) (sampleNbytes bufferNbytes : Nat) :
    (canFitSample c sampleNbytes bufferNbytes = true ↔
      c.numDataBytes + bufferNbytes + sampleNbytes < c.minChunkSize) ∧
    (c.numDataBytes + bufferNbytes + sampleNbytes = c.minChunkSize →
      canFitSample c sampleNbytes bufferNbytes = false) := by
  constructor
  · simp [canFitSample]
  · intro h
    simp only [canFitSample, decide_eq_false_iff_not]
    omega

/-- Witness for C1: on the concrete two-sample chunk (5 data bytes,
`min_chunk_size` 16), an 11-byte sample landing exactly at the budget is
rejected. -/
theorem can_fit_sample_spec_witness : canFitSample exChunk 11 0 = false :=
  (can_fit_sample_spec exChunk 11 0).2 (by decide)

/-- C10: an empty buffer makes `frombuffer` return a fresh chunk built from
the constructor arguments alone — no parsing, hence no format error: zero
samples, empty encoders, empty data, and the current format version. -/
theorem frombuffer_empty_spec (args : ChunkArgs) :
    frombuffer args [] = some (freshChunk args) ∧
    (freshChunk args).numSamples = 0 ∧
    (freshChunk args).shapesEnc = [] ∧
    (freshChunk args).bpsEnc = [] ∧
    (freshChunk args).dataBytes = [] ∧
    (freshChunk args).version = currentVersion :=
  ⟨rfl, rfl, rfl, rfl, rfl, rfl⟩

/-- Witness for C10 at the concrete constructor arguments. -/
theorem frombuffer_empty_spec_witness :
    frombuffer exArgs [] = some (freshChunk exArgs) :=
  (frombuffer_empty_spec exArgs).1

/-- C6: `update_sample` raises the invalid-shape error exactly when the new
shape's dimensionality differs from the dimensionality of the shape stored
at the index, and whenever it raises, the chunk is unchanged. -/
theorem update_sample_shape_check (c : Chunk) (i : Nat) (buf : List Nat)
    (shape : Shape) (hwf : c.wfCounts) (cur : Shape)
    (hcur : readShape c i = some cur) :
    ((updateSample c i buf shape).2 =
        some (ChunkError.invalidSampleShape shape cur.length) ↔
      cur.length ≠ shape.length) ∧
    ((updateSample c i buf shape).2 ≠ none →
      (updateSample c i buf shape).1 = c) := by
  have hcheck : checkShapeForUpdate c i shape =
      (if cur.length ≠ shape.length then
        some (ChunkError.invalidSampleShape shape cur.length) else none) := by
    unfold checkShapeForUpdate
    rw [hcur]
  refine ⟨?_, updateSample_fst_of_error c i buf shape⟩
  by_cases hd : cur.length = shape.length
  · have hcn : checkShapeForUpdate c i shape = none := by
      rw [hcheck, if_neg (by omega)]
    have hish : i < (shapesList c).length := by
      unfold readShape at hcur
      exact getElem?_some_lt hcur
    have hi : i < (nbList c).length := by
      have := hwf.2
      omega
    have heq := updateSample_eq c i buf shape hcn _ _ (bpGet_eq c i hi)
    rw [heq]
    constructor
    · intro hcontr
      exact absurd hcontr (by simp)
    · intro hne
      exact absurd hd hne
  · have heq : updateSample c i buf shape =
        (c, some (ChunkError.invalidSampleShape shape cur.length)) := by
      unfold updateSample
      rw [hcheck, if_pos hd]
    rw [heq]
    exact ⟨fun _ => hd, fun _ => rfl⟩

/-- Witness for C6: updating the concrete chunk's 1-D sample 0 with a 2-D
shape raises the invalid-shape error carrying dimensionality 1. -/
theorem update_sample_shape_check_witness :
    (updateSample exChunk 0 [9] [2, 2]).2 =
      some (ChunkError.invalidSampleShape [2, 2] 1) :=
  (update_sample_shape_check exChunk 0 [9] [2, 2] (by decide) [2]
    (by decide)).1.mpr (by decide)

/-- C8 counterexample: an image-htype chunk with grayscale conversion enabled
whose tensor dimensionality is 2 leaves the 2-D shape `(5, 7)` unwidened and
emits no warning, so the widening claimed for every enabled 2-D shape does
not happen. -/
theorem convert_to_rgb_counterexample :
    exImageChunk.isConvertCandidate = true ∧
    exImageChunk.convertGrayscale = true ∧
    (convertToRgb exImageChunk [5, 7]).2.1 = [5, 7] ∧
    (convertToRgb exImageChunk [5, 7]).2.1 ≠ [5, 7, 1] ∧
    (convertToRgb exImageChunk [5, 7]).2.2 = false := by
  refine ⟨rfl, rfl, rfl, ?_, rfl⟩
  decide

/-- C8 amended: `convert_to_rgb` widens a shape by a trailing 1 — flagging
the grayscale warning — exactly when the chunk is a convert candidate, the
grayscale toggle is on, the shape is 2-D, and the tensor dimensionality
(defaulting to the sample's own dimensionality when still unset) is 3; the
dimensionality is recorded whenever conversion is enabled. -/
theorem convert_to_rgb_spec (c : Chunk) (shape : Shape) :
    (convertToRgb c shape).2.2 =
      (c.isConvertCandidate && c.convertGrayscale && (shape.length == 2) &&
        (c.numDims.getD shape.length == 3)) ∧
    (convertToRgb c shape).2.1 =
      (if (c.isConvertCandidate && c.convertGrayscale && (shape.length == 2) &&
          (c.numDims.getD shape.length == 3)) = true then shape ++ [1]
        else shape) ∧
    (convertToRgb c shape).1.numDims =
      (if (c.isConvertCandidate && c.convertGrayscale) = true then
        some (c.numDims.getD shape.length) else c.numDims) := by
  unfold convertToRgb
  by_cases h1 : (c.isConvertCandidate && c.convertGrayscale) = true
  · by_cases h2 :
      ((shape.length == 2) && (c.numDims.getD shape.length == 3)) = true
    · simp [h1, h2]
    · simp [h1, h2]
  · simp [h1]

theorem resultTypeError_map {X Y : Type} (f : X → Y) (r : Except ChunkError X) :
    resultTypeError (r.map f) = resultTypeError r := by
  cases r with
  | error e => cases e <;> rfl
  | ok x => rfl

theorem resultTypeError_ok {X : Type} (x : X) :
    resultTypeError (Except.ok x : Except ChunkError X) = false := rfl

/-- C9 counterexample: in a chunk that is not text-like, a `str` value — a
variant the claim lists as supported — is routed to the unsupported-type
error. -/
theorem serialize_sample_counterexample :
    serializeSample defaultExt exChunk (SampleValue.textVal "a") =
      Except.error (ChunkError.invalidSampleType "str") := rfl

/-- C9 amended: provided the external serialize helpers never raise the
unsupported-type error themselves, `serialize_sample` of a text-like chunk
raises no type error (every value is routed to the text serializer), and for
a chunk that is not text-like it raises the type error with the offending
type's name exactly on values outside bytes, `Sample`, the numeric tuple and
`SampleTiles` — in particular `str` and `dict` values do raise there. -/
theorem serialize_sample_type_errors (ext : SerializeExt) (c : Chunk)
    (v : SampleValue) (hext : extNoTypeErrors ext) :
    (c.isTextLike = false → supportedNonText v = true →
      resultTypeError (serializeSample ext c v) = false) ∧
    (c.isTextLike = false → supportedNonText v = false →
      serializeSample ext c v =
        Except.error (ChunkError.invalidSampleType (typeNameOf v))) ∧
    (c.isTextLike = true →
      resultTypeError (serializeSample ext c v) = false) := by
  obtain ⟨hT, hS, hN⟩ := hext
  refine ⟨?_, ?_, ?_⟩
  · intro hct hsup
    cases v <;>
      simp [serializeSample, hct, resultTypeError_map, resultTypeError_ok,
        isNumericLike, hS, hN] <;>
      simp [supportedNonText, isNumericLike] at hsup
  · intro hct hsup
    cases v <;>
      simp [serializeSample, hct, isNumericLike, typeNameOf] <;>
      simp [supportedNonText, isNumericLike] at hsup
  · intro hct
    simp [serializeSample, hct, resultTypeError_map, resultTypeError_ok, hT]

/-- Witness for C9: with the concrete external helpers, serializing a bytes
value into the concrete non-text chunk raises no type error. -/
theorem serialize_sample_type_errors_witness :
    resultTypeError
      (serializeSample defaultExt exChunk (SampleValue.bytesVal [1])) = false := by
  have hext : extNoTypeErrors defaultExt := by
    refine ⟨fun h v => ?_, fun b sh => rfl, fun v => ?_⟩
    · cases v <;> rfl
    · cases v <;> rfl
  exact (serialize_sample_type_errors defaultExt exChunk
    (SampleValue.bytesVal [1]) hext).1 rfl rfl

theorem length_u4 (n : Nat) : (u4 n).length = 4 := rfl

theorem length_flatten_map_u4 (r : List Nat) :
    ((r.map u4).flatten).length = 4 * r.length := by
  induction r with
  | nil => rfl
  | cons a t ih =>
    simp only [List.map_cons, List.flatten_cons, List.length_append, length_u4,
      ih, List.length_cons]
    omega

theorem length_encRow (r : List Nat) : (encRow r).length = 4 + 4 * r.length := by
  simp only [encRow, List.length_append, length_u4, length_flatten_map_u4]

theorem length_flatten_map_encRow (t : List (List Nat)) :
    ((t.map encRow).flatten).length = (t.map fun r => 4 + 4 * r.length).sum := by
  induction t with
  | nil => rfl
  | cons r t ih =>
    simp only [List.map_cons, List.flatten_cons, List.length_append,
      length_encRow, List.sum_cons, ih]

theorem length_encTable (t : List (List Nat)) :
    (encTable t).length = 4 + (t.map fun r => 4 + 4 * r.length).sum := by
  simp only [encTable, List.length_append, length_u4, length_flatten_map_encRow]

/-- C7: the `nbytes` property — computed by `infer_chunk_num_bytes` from the
version, the two encoder tables and the data length alone — always equals the
length of the actually serialized chunk `tobytes()`. -/
theorem nbytes_eq_tobytes_length (c : Chunk) : c.nbytes = (tobytes c).length := by
  unfold Chunk.nbytes tobytes serializeChunk inferChunkNumBytes
  simp only [List.length_append, length_u4, length_encTable]

theorem readU4_u4 (n : Nat) (l : List Nat) (h : n < 4294967296) :
    readU4 (u4 n ++ l) = some (n, l) := by
  have he : n % 256 + 256 * (n / 256 % 256) + 65536 * (n / 65536 % 256) +
      16777216 * (n / 16777216 % 256) = n := by omega
  simp only [u4, readU4, List.cons_append, List.nil_append, he]

theorem readBytes_append (a l : List Nat) :
    readBytes a.length (a ++ l) = some (a, l) := by
  simp [readBytes, List.take_left, List.drop_left]

theorem readU4s_flatten (xs : List Nat) (l : List Nat)
    (h : ∀ x ∈ xs, x < 4294967296) :
    readU4s xs.length ((xs.map u4).flatten ++ l) = some (xs, l) := by
  induction xs with
  | nil => simp [readU4s]
  | cons x t ih =>
    simp only [List.map_cons, List.flatten_cons, List.length_cons,
      List.append_assoc, readU4s]
    rw [readU4_u4 x _ (h x (by simp)), Option.some_bind]
    rw [ih (fun y hy => h y (by simp [hy])), Option.map_some']

theorem readRow_encRow (r : List Nat) (l : List Nat)
    (hlen : r.length < 4294967296) (h : ∀ x ∈ r, x < 4294967296) :
    readRow (encRow r ++ l) = some (r, l) := by
  unfold readRow encRow
  rw [List.append_assoc, readU4_u4 _ _ hlen, Option.some_bind]
  exact readU4s_flatten r l h

theorem readRows_flatten (t : List (List Nat)) (l : List Nat)
    (h : ∀ r ∈ t, r.length < 4294967296 ∧ ∀ x ∈ r, x < 4294967296) :
    readRows t.length ((t.map encRow).flatten ++ l) = some (t, l) := by
  induction t with
  | nil => simp [readRows]
  | cons r t ih =>
    simp only [List.map_cons, List.flatten_cons, List.length_cons,
      List.append_assoc, readRows]
    rw [readRow_encRow r _ (h r (by simp)).1 (h r (by simp)).2, Option.some_bind]
    rw [ih (fun y hy => h y (by simp [hy])), Option.map_some']

theorem readTable_encTable (t : List (List Nat)) (l : List Nat)
    (h : tableOK t) :
    readTable (encTable t ++ l) = some (t, l) := by
  unfold readTable encTable
  rw [List.append_assoc, readU4_u4 _ _ h.1, Option.some_bind]
  exact readRows_flatten t l h.2

theorem deserializeChunk_serializeChunk (v : List Nat)
    (sa ba : List (List Nat)) (d : List Nat) (hv : v.length < 4294967296)
    (hsa : tableOK sa) (hba : tableOK ba) :
    deserializeChunk (serializeChunk v sa ba d) = some (v, sa, ba, d) := by
  unfold deserializeChunk serializeChunk
  simp only [List.append_assoc]
  rw [readU4_u4 _ _ hv, Option.some_bind]
  rw [readBytes_append, Option.some_bind]
  rw [readTable_encTable _ _ hsa, Option.some_bind]
  rw [readTable_encTable _ _ hba, Option.map_some']

theorem seFromArr_seArr (rows : List (Shape × Nat)) :
    seFromArr (seArr rows) = rows := by
  unfold seFromArr seArr
  rw [List.map_map]
  have hid : ((fun r => (List.dropLast r, List.getLastD r 0)) ∘
      fun (p : Shape × Nat) => p.1 ++ [p.2]) = id := by
    funext p
    simp [List.dropLast_concat, List.getLastD_concat]
  rw [hid, List.map_id, List.reverse_reverse]

theorem bpArrGo_map (l : List (Nat × Nat)) :
    ∀ t, (bpArrGo t l).map (fun r => (r.headD 0, r.getLastD 0)) = l := by
  induction l with
  | nil => intro t; rfl
  | cons p rest ih =>
    intro t
    obtain ⟨nb, c⟩ := p
    simp only [bpArrGo, List.map_cons, ih]
    rfl

theorem bpFromArr_bpArr (rows : List (Nat × Nat)) :
    bpFromArr (bpArr rows) = rows := by
  unfold bpFromArr bpArr
  rw [bpArrGo_map, List.reverse_reverse]

theorem tobytes_not_empty (c : Chunk) : (tobytes c).isEmpty = false := rfl

/-- C2: for every chunk whose tables fit the codec's four-byte fields,
`frombuffer(tobytes())` reconstructs the chunk element-wise — same version,
same shapes-encoder table, same byte-positions table, bit-identical data —
and `copy()` performs exactly this round trip. -/
theorem tobytes_frombuffer_roundtrip (c : Chunk) (args : ChunkArgs)
    (h : chunkSerOK c) :
    (frombuffer args (tobytes c)).map Chunk.version = some c.version ∧
    (frombuffer args (tobytes c)).map Chunk.shapesEnc = some c.shapesEnc ∧
    (frombuffer args (tobytes c)).map Chunk.bpsEnc = some c.bpsEnc ∧
    (frombuffer args (tobytes c)).map Chunk.dataBytes = some c.dataBytes ∧
    copyChunk c args = frombuffer args (tobytes c) := by
  have hdes := deserializeChunk_serializeChunk c.version (seArr c.shapesEnc)
    (bpArr c.bpsEnc) c.dataBytes h.1 h.2.1 h.2.2
  have hfb : frombuffer args (tobytes c) =
      some { mkChunk args (seArr c.shapesEnc) (bpArr c.bpsEnc) c.dataBytes with
              version := c.version } := by
    unfold frombuffer
    rw [tobytes_not_empty]
    simp only [Bool.false_eq_true, if_false]
    unfold tobytes
    rw [hdes]
  rw [hfb]
  refine ⟨rfl, ?_, ?_, rfl, ?_⟩
  · simp only [Option.map_some']
    exact congrArg some (seFromArr_seArr c.shapesEnc)
  · simp only [Option.map_some']
    exact congrArg some (bpFromArr_bpArr c.bpsEnc)
  · exact hfb

/-- Witness for C2: the concrete two-sample chunk round-trips; its data bytes
are recovered bit-identically. -/
theorem tobytes_frombuffer_roundtrip_witness :
    (frombuffer exArgs (tobytes exChunk)).map Chunk.dataBytes =
      some exChunk.dataBytes :=
  (tobytes_frombuffer_roundtrip exChunk exArgs (by decide)).2.2.2.1

theorem rangesPartition_of_wf (c : Chunk) (h : c.wfCounts) :
    rangesPartition c := by
  have hn : c.numSamples = (nbList c).length := h.2
  refine ⟨rfl, ?_, ?_, ?_, ?_, ?_⟩
  · rw [startByte, hn, List.take_length]
    exact h.1
  · intro i hi
    rw [hn] at hi
    show startByte c i + (nbList c).getD i 0 = startByte c (i + 1)
    rw [startByte, startByte, sum_take_succ_getD _ _ hi]
  · intro i j hij
    exact sum_take_mono _ hij
  · intro i j hij
    show startByte c i + (nbList c).getD i 0 ≤ startByte c j
    by_cases hi : i < (nbList c).length
    · rw [startByte, startByte, ← sum_take_succ_getD _ _ hi]
      exact sum_take_mono _ (by omega)
    · rw [List.getD_eq_default _ _ (by omega)]
      rw [Nat.add_zero]
      exact sum_take_mono _ (by omega)
  · intro b
    rw [← h.1, hn]
    simp only [startByte, endByte]
    exact mem_ranges_iff (nbList c) b

/-- C4: after any sequence of sample registrations and in-place updates on a
chunk with tracked byte positions, the per-sample byte ranges remain
contiguous, non-overlapping, monotonically increasing, and their union is
exactly the interval from 0 to the data length. -/
theorem byte_ranges_partition (c0 : Chunk) (ops : List ChunkOp)
    (h0 : c0.wfCounts) :
    (applyOps c0 ops).wfCounts ∧ rangesPartition (applyOps c0 ops) :=
  ⟨wf_applyOps c0 ops h0, rangesPartition_of_wf _ (wf_applyOps c0 ops h0)⟩

/-- Witness for C4: a fresh chunk taken through a concrete append and update
sequence keeps the bookkeeping invariant. -/
theorem byte_ranges_partition_witness :
    (applyOps (freshChunk exArgs) exOps).wfCounts :=
  (byte_ranges_partition (freshChunk exArgs) exOps (by decide)).1

theorem updateShapeInterval_length (m : TensorMeta) (shape : Shape) :
    (updateShapeInterval m shape).length = m.length := by
  unfold updateShapeInterval
  split <;> rfl

theorem registerSampleToHeaders_tensorMeta (c : Chunk) (nb : Option Nat)
    (sh : Shape) :
    (registerSampleToHeaders c nb sh).tensorMeta = c.tensorMeta := by
  unfold registerSampleToHeaders
  cases nb <;> rfl

theorem writeTile_snd (c : Chunk) (st : SampleTiles) :
    (writeTile c st).2 = { st with yielded := st.yielded + 1 } := by
  unfold writeTile
  cases htl : st.tiles[st.yielded]? with
  | none => rfl
  | some tl =>
    simp only []
    split <;> rfl

theorem writeTile_meta_later (c : Chunk) (st : SampleTiles)
    (h : 1 ≤ st.yielded) :
    (writeTile c st).1.tensorMeta = c.tensorMeta := by
  unfold writeTile
  cases htl : st.tiles[st.yielded]? with
  | none => rfl
  | some tl =>
    have hne : (st.yielded + 1 == 1) = false := by
      simp only [beq_eq_false_iff_ne, ne_eq]
      omega
    simp only [hne, Bool.false_eq_true, if_false]
    exact registerSampleToHeaders_tensorMeta _ _ _

theorem writeTile_meta_first (c : Chunk) (st : SampleTiles)
    (h0 : st.yielded = 0) (tl : List Nat × Shape)
    (htl : st.tiles[0]? = some tl) :
    (writeTile c st).1.tensorMeta =
      updateShapeInterval { c.tensorMeta with length := c.tensorMeta.length + 1 }
        st.sampleShape := by
  unfold writeTile
  rw [h0]
  cases htl2 : st.tiles[0]? with
  | none => rw [htl2] at htl; exact Option.noConfusion htl
  | some tl2 =>
    rw [htl2] at htl
    obtain rfl : tl2 = tl := Option.some.inj htl
    simp only []
    split
    · simp only [registerSampleToHeaders_tensorMeta]
    · rename_i hcond
      simp at hcond

theorem writeTile_fields (c : Chunk) (st : SampleTiles) (tl : List Nat × Shape)
    (htl : st.tiles[st.yielded]? = some tl) :
    (writeTile c st).1.dataBytes = tl.1 ∧
    (writeTile c st).1.shapesEnc = rleRegister tl.2 1 c.shapesEnc ∧
    (writeTile c st).1.bpsEnc = rleRegister tl.1.length 1 c.bpsEnc := by
  unfold writeTile
  cases htl2 : st.tiles[st.yielded]? with
  | none => rw [htl2] at htl; exact Option.noConfusion htl
  | some tl2 =>
    rw [htl2] at htl
    obtain rfl : tl2 = tl := Option.some.inj htl
    simp only []
    split <;> exact ⟨rfl, rfl, rfl⟩

theorem writeTilesGo_meta_const (args : ChunkArgs) :
    ∀ (n : Nat) (meta : TensorMeta) (st : SampleTiles), 1 ≤ st.yielded →
      (writeTilesGo args meta st n).1 = meta := by
  intro n
  induction n with
  | zero => intro meta st _; rfl
  | succ m ih =>
    intro meta st h
    show (writeTilesGo args
      (writeTile (freshChunk { args with tensorMeta := meta }) st).1.tensorMeta
      (writeTile (freshChunk { args with tensorMeta := meta }) st).2 m).1 = meta
    rw [writeTile_meta_later _ _ h]
    refine ih meta _ ?_
    rw [writeTile_snd]
    show 1 ≤ st.yielded + 1
    omega

theorem writeTilesGo_len (args : ChunkArgs) :
    ∀ (n : Nat) (meta : TensorMeta) (st : SampleTiles),
      (writeTilesGo args meta st n).2.2.length = n := by
  intro n
  induction n with
  | zero => intro meta st; rfl
  | succ m ih =>
    intro meta st
    show ((writeTile (freshChunk { args with tensorMeta := meta }) st).1 ::
      (writeTilesGo args _ _ m).2.2).length = m + 1
    rw [List.length_cons, ih]

theorem writeTilesGo_chunks (args : ChunkArgs) :
    ∀ (n : Nat) (meta : TensorMeta) (st : SampleTiles) (j : Nat)
      (tl : List Nat × Shape),
      st.tiles[st.yielded + j]? = some tl → j < n →
      ((writeTilesGo args meta st n).2.2[j]?.map Chunk.dataBytes = some tl.1 ∧
       (writeTilesGo args meta st n).2.2[j]?.map shapesList = some [tl.2] ∧
       (writeTilesGo args meta st n).2.2[j]?.map nbList = some [tl.1.length]) := by
  intro n
  induction n with
  | zero => intro meta st j tl _ hj; omega
  | succ m ih =>
    intro meta st j tl htl hj
    cases j with
    | zero =>
      have htl0 : st.tiles[st.yielded]? = some tl := by simpa using htl
      obtain ⟨hd, hsh, hbp⟩ :=
        writeTile_fields (freshChunk { args with tensorMeta := meta }) st tl htl0
      show ((writeTile (freshChunk { args with tensorMeta := meta }) st).1 ::
          (writeTilesGo args _ _ m).2.2)[0]?.map Chunk.dataBytes = some tl.1 ∧
        ((writeTile (freshChunk { args with tensorMeta := meta }) st).1 ::
          (writeTilesGo args _ _ m).2.2)[0]?.map shapesList = some [tl.2] ∧
        ((writeTile (freshChunk { args with tensorMeta := meta }) st).1 ::
          (writeTilesGo args _ _ m).2.2)[0]?.map nbList = some [tl.1.length]
      simp only [List.getElem?_cons_zero, Option.map_some']
      refine ⟨congrArg some hd, ?_, ?_⟩
      · show some (shapesList (writeTile _ st).1) = some [tl.2]
        rw [shapesList, hsh]
        show some (rleDecode (rleRegister tl.2 1 [])) = some [tl.2]
        rfl
      · show some (nbList (writeTile _ st).1) = some [tl.1.length]
        rw [nbList, hbp]
        show some (rleDecode (rleRegister tl.1.length 1 [])) = some [tl.1.length]
        rfl
    | succ k =>
      have hy : (writeTile (freshChunk { args with tensorMeta := meta }) st).2 =
          { st with yielded := st.yielded + 1 } := writeTile_snd _ _
      have htl' : (writeTile (freshChunk { args with tensorMeta := meta })
          st).2.tiles[(writeTile (freshChunk { args with tensorMeta := meta })
            st).2.yielded + k]? = some tl := by
        rw [hy]
        show st.tiles[st.yielded + 1 + k]? = some tl
        rw [show st.yielded + 1 + k = st.yielded + (k + 1) by omega]
        exact htl
      have := ih (writeTile (freshChunk { args with tensorMeta := meta })
          st).1.tensorMeta
        (writeTile (freshChunk { args with tensorMeta := meta }) st).2 k tl htl'
        (by omega)
      show ((writeTile (freshChunk { args with tensorMeta := meta }) st).1 ::
          (writeTilesGo args _ _ m).2.2)[k + 1]?.map Chunk.dataBytes =
            some tl.1 ∧
        ((writeTile (freshChunk { args with tensorMeta := meta }) st).1 ::
          (writeTilesGo args _ _ m).2.2)[k + 1]?.map shapesList = some [tl.2] ∧
        ((writeTile (freshChunk { args with tensorMeta := meta }) st).1 ::
          (writeTilesGo args _ _ m).2.2)[k + 1]?.map nbList =
            some [tl.1.length]
      simpa only [List.getElem?_cons_succ] using this

/-- C5: writing a tile sequence via `write_tile`, one tile per fresh chunk,
registers each tile's shape and byte count in that chunk's encoders, while
the shared tensor meta receives exactly one length increment and one envelope
widening with the full sample shape — from the tile whose first-write flag is
set — so a sample split into k tiles increases `TensorMeta.length` by
exactly 1. -/
theorem write_tile_spec (args : ChunkArgs) (meta : TensorMeta)
    (st : SampleTiles) (h0 : st.yielded = 0) (hne : st.tiles ≠ []) :
    (writeTilesGo args meta st st.tiles.length).1 =
      updateShapeInterval { meta with length := meta.length + 1 }
        st.sampleShape ∧
    (writeTilesGo args meta st st.tiles.length).1.length = meta.length + 1 ∧
    (writeTilesGo args meta st st.tiles.length).2.2.length =
      st.tiles.length ∧
    (∀ (j : Nat) (tl : List Nat × Shape), st.tiles[j]? = some tl →
      ((writeTilesGo args meta st
          st.tiles.length).2.2[j]?.map Chunk.dataBytes = some tl.1 ∧
       (writeTilesGo args meta st
          st.tiles.length).2.2[j]?.map shapesList = some [tl.2] ∧
       (writeTilesGo args meta st
          st.tiles.length).2.2[j]?.map nbList = some [tl.1.length])) := by
  have hmeta : (writeTilesGo args meta st st.tiles.length).1 =
      updateShapeInterval { meta with length := meta.length + 1 }
        st.sampleShape := by
    cases hts : st.tiles with
    | nil => exact absurd hts hne
    | cons hd tl0 =>
      rw [List.length_cons]
      show (writeTilesGo args
        (writeTile (freshChunk { args with tensorMeta := meta }) st).1.tensorMeta
        (writeTile (freshChunk { args with tensorMeta := meta }) st).2
        tl0.length).1 = _
      have hhd : st.tiles[0]? = some hd := by rw [hts]; simp
      rw [writeTilesGo_meta_const args tl0.length _ _
        (by rw [writeTile_snd]; show 1 ≤ st.yielded + 1; omega)]
      rw [writeTile_meta_first _ st h0 hd hhd]
      rfl
  refine ⟨hmeta, ?_, writeTilesGo_len args _ _ _, ?_⟩
  · rw [hmeta, updateShapeInterval_length]
  · intro j tl htl
    have hjlt : j < st.tiles.length := getElem?_some_lt htl
    refine writeTilesGo_chunks args st.tiles.length meta st j tl ?_ hjlt
    rw [h0]
    simpa using htl

/-- Witness for C5: writing the concrete two-tile sample increments the meta
length by exactly one and widens the envelope with the full sample shape. -/
theorem write_tile_spec_witness :
    (writeTilesGo exArgs exMeta exTiles exTiles.tiles.length).1 =
      updateShapeInterval { exMeta with length := exMeta.length + 1 } [4] :=
  (write_tile_spec exArgs exMeta exTiles rfl (by decide)).1

theorem readSampleBytes_eq (c : Chunk) (j : Nat) (hj : j < (nbList c).length) :
    readSampleBytes c j =
      some ((c.dataBytes.drop (startByte c j)).take ((nbList c).getD j 0)) := by
  unfold readSampleBytes
  rw [bpGet_eq c j hj]
  simp only [Option.map_some']
  congr 1
  rw [Nat.add_sub_cancel_left]

theorem readSampleBytes_none (c : Chunk) (j : Nat)
    (hj : (nbList c).length ≤ j) : readSampleBytes c j = none := by
  unfold readSampleBytes bpGet
  rw [List.getElem?_eq_none hj]
  rfl

/-- C3: a successful `update_sample(i, buf, shape)` on a chunk with tracked
byte positions replaces the data block by the old prefix, then `buf`, then
the old suffix — so its length shrinks by the old sample's extent and grows
by `len(buf)` — after which sample `i` reads back as `(buf, shape)` and every
other sample reads back bit-identically with its shape intact. -/
theorem update_sample_isolation (c : Chunk) (i : Nat) (buf : List Nat)
    (shape : Shape) (hwf : c.wfCounts) (s e : Nat)
    (hbp : bpGet c i = some (s, e))
    (hok : (updateSample c i buf shape).2 = none) :
    (updateSample c i buf shape).1.dataBytes =
        c.dataBytes.take s ++ buf ++ c.dataBytes.drop e ∧
    (updateSample c i buf shape).1.dataBytes.length =
        c.dataBytes.length - (e - s) + buf.length ∧
    readSampleBytes (updateSample c i buf shape).1 i = some buf ∧
    readShape (updateSample c i buf shape).1 i = some shape ∧
    (∀ j, j ≠ i →
      readSampleBytes (updateSample c i buf shape).1 j =
        readSampleBytes c j ∧
      readShape (updateSample c i buf shape).1 j = readShape c j) := by
  obtain ⟨hc, -⟩ := updateSample_ok_elim c i buf shape hok
  obtain ⟨hi, hs, he⟩ := bpGet_elim c i s e hbp
  have heq := updateSample_eq c i buf shape hc s e hbp
  have hc1 : (updateSample c i buf shape).1 =
      { c with
          dataBytes := c.dataBytes.take s ++ buf ++ c.dataBytes.drop e,
          bpsEnc := rleSet c.bpsEnc i buf.length,
          shapesEnc := rleSet c.shapesEnc i shape,
          tensorMeta := updateShapeInterval c.tensorMeta shape } := by
    rw [heq]
  have hnb : nbList (updateSample c i buf shape).1 =
      (nbList c).set i buf.length := by
    rw [hc1]
    exact rleDecode_set _ _ _
  have hsh : shapesList (updateSample c i buf shape).1 =
      (shapesList c).set i shape := by
    rw [hc1]
    exact rleDecode_set _ _ _
  have hd : (updateSample c i buf shape).1.dataBytes =
      c.dataBytes.take s ++ buf ++ c.dataBytes.drop e := by
    rw [hc1]
  have hsle : s ≤ c.dataBytes.length := by
    rw [hs]
    exact startByte_le_data c i hwf
  have hele : e ≤ c.dataBytes.length := by
    rw [he]
    exact endByte_le_data c i hwf hi
  have hlenA : (c.dataBytes.take s).length = s := by
    rw [List.length_take]
    omega
  have hish : i < (shapesList c).length := by
    have := hwf.2
    omega
  refine ⟨hd, ?_, ?_, ?_, ?_⟩
  · rw [hd]
    simp only [List.length_append, List.length_take, List.length_drop]
    have hse : s ≤ e := by omega
    omega
  · have hi' : i < (nbList (updateSample c i buf shape).1).length := by
      rw [hnb, List.length_set]
      exact hi
    rw [readSampleBytes_eq _ i hi']
    have hstart : startByte (updateSample c i buf shape).1 i = s := by
      rw [startByte, hnb, sum_take_set_of_le _ _ _ _ (le_refl i)]
      exact hs.symm
    have hgd : (nbList (updateSample c i buf shape).1).getD i 0 = buf.length := by
      rw [hnb, List.getD_eq_getElem _ 0 (by rw [List.length_set]; exact hi)]
      exact List.getElem_set_self _
    rw [hstart, hgd, hd, List.append_assoc]
    have hsl := slice_append_right (c.dataBytes.take s)
      (buf ++ c.dataBytes.drop e) 0 buf.length
    rw [hlenA, Nat.add_zero, List.drop_zero] at hsl
    rw [hsl]
    rw [List.take_left]
  · unfold readShape
    rw [hsh]
    exact List.getElem?_set_self hish
  · intro j hji
    by_cases hjlen : j < (nbList c).length
    · constructor
      · have hj' : j < (nbList (updateSample c i buf shape).1).length := by
          rw [hnb, List.length_set]
          exact hjlen
        rw [readSampleBytes_eq _ j hj', readSampleBytes_eq c j hjlen]
        have hgd : (nbList (updateSample c i buf shape).1).getD j 0 =
            (nbList c).getD j 0 := by
          rw [hnb, List.getD_eq_getElem?_getD, List.getD_eq_getElem?_getD,
            List.getElem?_set_ne (fun hcon => hji hcon.symm)]
        rw [hgd, hd]
        congr 1
        rcases Nat.lt_or_ge j i with hj | hj
        · have hstart : startByte (updateSample c i buf shape).1 j =
              startByte c j := by
            rw [startByte, hnb, sum_take_set_of_le _ _ _ _ (le_of_lt hj)]
            rfl
          rw [hstart]
          have hbound : startByte c j + (nbList c).getD j 0 ≤ s := by
            rw [hs]
            have h1 := sum_take_succ_getD (nbList c) j hjlen
            have h2 := sum_take_mono (nbList c) (show j + 1 ≤ i by omega)
            rw [startByte, startByte]
            omega
          rw [List.append_assoc]
          rw [slice_append_left _ _ _ _ (by rw [hlenA]; exact hbound)]
          exact slice_take c.dataBytes s _ _ hbound
        · have hij : i < j := by omega
          have hkey := sum_take_set_add (nbList c) i j buf.length hij hi
          have hej : e ≤ startByte c j := by
            rw [he, startByte, ← sum_take_succ_getD _ _ hi]
            exact sum_take_mono _ (by omega)
          have hstart : startByte (updateSample c i buf shape).1 j =
              (s + buf.length) + (startByte c j - e) := by
            have h2 := hej
            have h3 := hs
            have h4 := he
            simp only [startByte] at h2 h3 h4 ⊢
            rw [hnb]
            omega
          rw [hstart]
          have hlenAB : (c.dataBytes.take s ++ buf).length = s + buf.length := by
            rw [List.length_append, hlenA]
          rw [show (s + buf.length) + (startByte c j - e) =
            (c.dataBytes.take s ++ buf).length + (startByte c j - e) by
              rw [hlenAB]]
          rw [slice_append_right]
          have hdd : (c.dataBytes.drop e).drop (startByte c j - e) =
              c.dataBytes.drop (startByte c j) := by
            rw [List.drop_drop]
            congr 1
            omega
          rw [hdd]
      · unfold readShape
        rw [hsh]
        exact List.getElem?_set_ne (fun hcon => hji hcon.symm)
    · constructor
      · rw [readSampleBytes_none _ j (by rw [hnb, List.length_set]; omega),
          readSampleBytes_none c j (by omega)]
      · unfold readShape
        rw [hsh]
        rw [List.getElem?_eq_none
            (by rw [List.length_set]; have := hwf.2; omega),
          List.getElem?_eq_none (by have := hwf.2; omega)]

/-- Witness for C3: updating sample 0 of the concrete chunk from `[1, 2]` to
`[7, 8, 9]` leaves sample 1 reading back bit-identically. -/
theorem update_sample_isolation_witness :
    readSampleBytes (updateSample exChunk 0 [7, 8, 9] [3]).1 1 =
      readSampleBytes exChunk 1 :=
  ((update_sample_isolation exChunk 0 [7, 8, 9] [3] (by decide) 0 2
      (by decide) (by decide)).2.2.2.2 1 (by decide)).1

end HubChunk
